import Mathlib

/-!
Verification of the PR-notification monitor (sources: `github_api.py`, `main.py`).

Each Python function relevant to the specification is embedded as a pure
Lean definition; theorems below settle the specification's claims against
those definitions.
-/

namespace PRNotif

/-! ### Review model — `github_api.py`, `PRMonitor._get_review_status`

A GitHub review object is projected by the source to
`review.get('user', {}).get('login')` and `review.get('state')`; either may
be missing (`None`) or the empty string, both of which are falsy in Python.
-/

/-- One element of the JSON review list, as the source projects it:
an optional user login and an optional review state. -/
structure Review where
  user  : Option String
  state : Option String
deriving DecidableEq, Repr

/-- Python truthiness of an optional string: `None` and `""` are falsy. -/
def truthy : Option String → Bool
  | none => false
  | some s => s ≠ ""

/-- Python `dict` assignment `d[k] = v`: replace the value in place if the
key is present, otherwise append the binding at the end. -/
def dictInsert (k v : String) : List (String × String) → List (String × String)
  | [] => [(k, v)]
  | (k', v') :: rest => if k' = k then (k, v) :: rest else (k', v') :: dictInsert k v rest

/-- First-match association-list lookup (Python `d[k]` / `k in d`). -/
def dictLookup (k : String) : List (String × String) → Option String
  | [] => none
  | (k', v) :: rest => if k' = k then some v else dictLookup k rest

/-- The `latest_states` dict of `_get_review_status`: iterate over the
reviews in API arrival order and record each (truthy) reviewer's state,
a later review overwriting the same reviewer's earlier one. -/
def latestStates (reviews : List Review) : List (String × String) :=
  reviews.foldl
    (fun d r =>
      match r.user, r.state with
      | some u, some s => if u ≠ "" ∧ s ≠ "" then dictInsert u s d else d
      | _, _ => d)
    []

/-- `_get_review_status`, success path (HTTP 200 with a parsed review list):
empty list ⇒ `pending`; otherwise reduce via `latest_states` and check its
values for `CHANGES_REQUESTED`, then `APPROVED`, else `pending`. -/
def get_review_status (reviews : List Review) : String :=
  if reviews = [] then "pending"
  else
    let vals := (latestStates reviews).map Prod.snd
    if "CHANGES_REQUESTED" ∈ vals then "changes_requested"
    else if "APPROVED" ∈ vals then "approved"
    else "pending"

/-- Specification-side description of "reviewer `u`'s latest state": the
state of the last review in arrival order whose user is `u` and whose user
and state are both truthy. -/
def lastStateOf (u : String) (reviews : List Review) : Option String :=
  (reviews.filterMap
    (fun r => if r.user = some u ∧ truthy r.user ∧ truthy r.state then r.state else none)).getLast?

/-- The step function folded by `latestStates`. -/
def latestStep (d : List (String × String)) (r : Review) : List (String × String) :=
  match r.user, r.state with
  | some u, some s => if u ≠ "" ∧ s ≠ "" then dictInsert u s d else d
  | _, _ => d

theorem latestStates_eq_foldl (reviews : List Review) :
    latestStates reviews = reviews.foldl latestStep [] := rfl

theorem dictLookup_dictInsert (k k' v : String) (d : List (String × String)) :
    dictLookup k (dictInsert k' v d) = if k' = k then some v else dictLookup k d := by
  induction d with
  | nil => simp [dictInsert, dictLookup]
  | cons p rest ih =>
    obtain ⟨k₀, v₀⟩ := p
    by_cases h₀ : k₀ = k'
    · subst h₀
      by_cases hk : k₀ = k <;> simp [dictInsert, dictLookup, hk]
    · by_cases hk : k₀ = k
      · subst hk
        have hkk' : ¬ k' = k₀ := fun h => h₀ h.symm
        simp [dictInsert, dictLookup, h₀, hkk']
      · simp [dictInsert, dictLookup, h₀, hk, ih]

theorem orElse_assoc (a b c : Option String) :
    ((a <|> b) <|> c) = (a <|> (b <|> c)) := by
  cases a <;> cases b <;> rfl

theorem getLast?_cons_orElse (a : String) (l : List String) :
    (a :: l).getLast? = (l.getLast? <|> some a) := by
  induction l generalizing a with
  | nil => rfl
  | cons b t ih =>
    rw [List.getLast?_cons_cons, ih b]
    cases h : t.getLast? <;> simp [Option.orElse]

theorem lastStateOf_cons (u : String) (r : Review) (rest : List Review) :
    lastStateOf u (r :: rest) =
      (lastStateOf u rest <|>
        (if r.user = some u ∧ truthy r.user ∧ truthy r.state then r.state else none)) := by
  by_cases h : r.user = some u ∧ truthy r.user ∧ truthy r.state
  · obtain ⟨h1, h2, h3⟩ := h
    rcases hs : r.state with _ | s
    · rw [hs] at h3
      exact absurd h3 (by simp [truthy])
    · have hcond :
          (if r.user = some u ∧ truthy r.user ∧ truthy r.state then r.state else none)
            = some s := by
        rw [if_pos ⟨h1, h2, h3⟩, hs]
      have hs' : s ≠ "" := by
        rw [hs] at h3
        simpa [truthy] using h3
      have hu' : ∀ u', r.user = some u' → u' ≠ "" := by
        intro u' hu
        rw [hu] at h2
        simpa [truthy] using h2
      unfold lastStateOf
      rw [List.filterMap_cons]
      simp only [hcond]
      rw [getLast?_cons_orElse]
      simp [h1, hu' u h1, hs', hs, truthy]
  · have hcond :
        (if r.user = some u ∧ truthy r.user ∧ truthy r.state then r.state else none)
          = none := by
      rw [if_neg h]
    unfold lastStateOf
    rw [List.filterMap_cons]
    simp only [hcond]
    cases (List.filterMap
        (fun r => if r.user = some u ∧ truthy r.user ∧ truthy r.state then r.state else none)
        rest).getLast? <;> rfl

theorem dictLookup_latestStep (u : String) (d : List (String × String)) (r : Review) :
    dictLookup u (latestStep d r) =
      ((if r.user = some u ∧ truthy r.user ∧ truthy r.state then r.state else none) <|>
        dictLookup u d) := by
  obtain ⟨ru, rs⟩ := r
  rcases ru with _ | ru
  · simp [latestStep, truthy]
  · rcases rs with _ | rs
    · simp [latestStep, truthy]
    · by_cases htr : ru ≠ "" ∧ rs ≠ ""
      · obtain ⟨h1, h2⟩ := htr
        by_cases he : ru = u
        · subst he
          simp [latestStep, h1, h2, dictLookup_dictInsert, truthy, Option.orElse]
        · have hne : ¬ (some ru = some u) := fun h => he (Option.some.inj h)
          simp [latestStep, h1, h2, dictLookup_dictInsert, he, hne, truthy, Option.orElse]
      · have hnot : ¬ (ru = u ∧ truthy (some ru) = true ∧ truthy (some rs) = true) := by
          rintro ⟨-, hh2, hh3⟩
          simp only [truthy, decide_eq_true_eq] at hh2 hh3
          exact htr ⟨hh2, hh3⟩
        simp [latestStep, htr, hnot, Option.orElse]

theorem dictLookup_foldl_latestStep (u : String) (reviews : List Review) :
    ∀ d, dictLookup u (reviews.foldl latestStep d) =
      (lastStateOf u reviews <|> dictLookup u d) := by
  induction reviews with
  | nil => intro d; simp [lastStateOf]
  | cons r rest ih =>
    intro d
    rw [List.foldl_cons, ih (latestStep d r), dictLookup_latestStep,
      lastStateOf_cons, orElse_assoc]

/-- Main characterisation: looking a user up in `latest_states` yields
exactly that user's latest (truthy) review state. -/
theorem dictLookup_latestStates (u : String) (reviews : List Review) :
    dictLookup u (latestStates reviews) = lastStateOf u reviews := by
  rw [latestStates_eq_foldl, dictLookup_foldl_latestStep]
  cases h : lastStateOf u reviews <;> simp [dictLookup, Option.orElse]

/-- Keys of an association list. -/
def dictKeys (d : List (String × String)) : List String := d.map Prod.fst

theorem dictKeys_dictInsert (k v : String) (d : List (String × String)) :
    dictKeys (dictInsert k v d) = if k ∈ dictKeys d then dictKeys d else dictKeys d ++ [k] := by
  induction d with
  | nil => simp [dictInsert, dictKeys]
  | cons p rest ih =>
    obtain ⟨k₀, v₀⟩ := p
    by_cases h₀ : k₀ = k
    · subst h₀
      simp [dictInsert, dictKeys]
    · simp only [dictInsert, if_neg h₀, dictKeys, List.map_cons, List.mem_cons]
      have : ¬ k = k₀ := fun h => h₀ h.symm
      by_cases hm : k ∈ dictKeys rest
      · simp only [dictKeys] at hm
        simp [this, hm, dictKeys] at ih ⊢
        exact ih
      · simp only [dictKeys] at hm
        simp [this, hm, dictKeys] at ih ⊢
        exact ih

theorem nodup_dictKeys_dictInsert (k v : String) (d : List (String × String))
    (h : (dictKeys d).Nodup) : (dictKeys (dictInsert k v d)).Nodup := by
  rw [dictKeys_dictInsert]
  by_cases hm : k ∈ dictKeys d
  · simpa [hm]
  · simp only [hm, if_neg, ite_false]
    simpa [List.nodup_append] using ⟨h, hm⟩

theorem nodup_dictKeys_latestStep (d : List (String × String)) (r : Review)
    (h : (dictKeys d).Nodup) : (dictKeys (latestStep d r)).Nodup := by
  obtain ⟨ru, rs⟩ := r
  rcases ru with _ | u
  · exact h
  · rcases rs with _ | s
    · exact h
    · show (dictKeys (if u ≠ "" ∧ s ≠ "" then dictInsert u s d else d)).Nodup
      by_cases ht : u ≠ "" ∧ s ≠ ""
      · rw [if_pos ht]; exact nodup_dictKeys_dictInsert u s d h
      · rwa [if_neg ht]

theorem nodup_dictKeys_latestStates (reviews : List Review) :
    (dictKeys (latestStates reviews)).Nodup := by
  rw [latestStates_eq_foldl]
  have : ∀ d, (dictKeys d).Nodup → (dictKeys (reviews.foldl latestStep d)).Nodup := by
    induction reviews with
    | nil => intro d hd; simpa
    | cons r rest ih =>
      intro d hd
      rw [List.foldl_cons]
      exact ih _ (nodup_dictKeys_latestStep d r hd)
  exact this [] (by simp [dictKeys])

theorem dictLookup_eq_some_mem_keys {k v : String} {d : List (String × String)}
    (h : dictLookup k d = some v) : k ∈ dictKeys d := by
  induction d with
  | nil => simp [dictLookup] at h
  | cons p rest ih =>
    obtain ⟨k₀, v₀⟩ := p
    by_cases hk : k₀ = k
    · subst hk; simp [dictKeys]
    · rw [dictLookup, if_neg hk] at h
      have hm : k ∈ dictKeys rest := ih h
      simp only [dictKeys, List.map_cons]
      exact List.mem_cons_of_mem _ hm

theorem mem_values_iff_dictLookup {v : String} {d : List (String × String)}
    (hd : (dictKeys d).Nodup) :
    v ∈ d.map Prod.snd ↔ ∃ k, dictLookup k d = some v := by
  induction d with
  | nil => simp [dictLookup]
  | cons p rest ih =>
    obtain ⟨k₀, v₀⟩ := p
    simp only [dictKeys, List.map_cons, List.nodup_cons] at hd
    constructor
    · intro hv
      rcases List.mem_cons.mp hv with hv | hv
      · exact ⟨k₀, by rw [dictLookup, if_pos rfl]; exact congrArg some hv.symm⟩
      · obtain ⟨k, hk⟩ := (ih hd.2).mp hv
        refine ⟨k, ?_⟩
        have hkmem : k ∈ dictKeys rest := dictLookup_eq_some_mem_keys hk
        have : k₀ ≠ k := fun he => hd.1 (he ▸ hkmem)
        rw [dictLookup, if_neg this]
        exact hk
    · rintro ⟨k, hk⟩
      by_cases hke : k₀ = k
      · subst hke
        rw [dictLookup, if_pos rfl] at hk
        simp [Option.some.inj hk]
      · rw [dictLookup, if_neg hke] at hk
        exact List.mem_cons_of_mem _ ((ih hd.2).mpr ⟨k, hk⟩)

theorem mem_values_latestStates_iff (v : String) (reviews : List Review) :
    v ∈ (latestStates reviews).map Prod.snd ↔ ∃ u, lastStateOf u reviews = some v := by
  rw [mem_values_iff_dictLookup (nodup_dictKeys_latestStates reviews)]
  constructor
  · rintro ⟨u, hu⟩; exact ⟨u, by rw [← dictLookup_latestStates]; exact hu⟩
  · rintro ⟨u, hu⟩; exact ⟨u, by rw [dictLookup_latestStates]; exact hu⟩

theorem get_review_status_characterisation (reviews : List Review) :
    get_review_status reviews =
      if "CHANGES_REQUESTED" ∈ (latestStates reviews).map Prod.snd then "changes_requested"
      else if "APPROVED" ∈ (latestStates reviews).map Prod.snd then "approved"
      else "pending" := by
  by_cases h : reviews = []
  · subst h
    simp [get_review_status, latestStates]
  · rw [get_review_status, if_neg h]

/-- C1: the review-status reduction first computes each reviewer's latest
state (API arrival order, later review by the same reviewer overwrites the
earlier one), then returns `changes_requested` if any reviewer's latest
state is `CHANGES_REQUESTED`, else `approved` if any is `APPROVED`, else
`pending`; the empty list yields `pending`, and the three concrete examples
of the specification evaluate as stated. -/
theorem C1_review_status_reduction (reviews : List Review) :
    (∀ u : String, dictLookup u (latestStates reviews) = lastStateOf u reviews) ∧
    ((∃ u, lastStateOf u reviews = some "CHANGES_REQUESTED") →
      get_review_status reviews = "changes_requested") ∧
    ((¬ ∃ u, lastStateOf u reviews = some "CHANGES_REQUESTED") →
      (∃ u, lastStateOf u reviews = some "APPROVED") →
      get_review_status reviews = "approved") ∧
    ((¬ ∃ u, lastStateOf u reviews = some "CHANGES_REQUESTED") →
      (¬ ∃ u, lastStateOf u reviews = some "APPROVED") →
      get_review_status reviews = "pending") ∧
    get_review_status [] = "pending" ∧
    get_review_status
      [⟨some "alice", some "APPROVED"⟩, ⟨some "bob", some "CHANGES_REQUESTED"⟩,
        ⟨some "alice", some "APPROVED"⟩] = "changes_requested" ∧
    get_review_status [⟨some "alice", some "APPROVED"⟩] = "approved" := by
  refine ⟨fun u => dictLookup_latestStates u reviews, ?_, ?_, ?_, by decide, by decide, by decide⟩
  · intro hcr
    rw [get_review_status_characterisation,
      if_pos ((mem_values_latestStates_iff _ reviews).mpr hcr)]
  · intro hncr hap
    rw [get_review_status_characterisation,
      if_neg (fun hm => hncr ((mem_values_latestStates_iff _ reviews).mp hm)),
      if_pos ((mem_values_latestStates_iff _ reviews).mpr hap)]
  · intro hncr hnap
    rw [get_review_status_characterisation,
      if_neg (fun hm => hncr ((mem_values_latestStates_iff _ reviews).mp hm)),
      if_neg (fun hm => hnap ((mem_values_latestStates_iff _ reviews).mp hm))]

/-- Witness for C1: at the specification's first example list, the second
conjunct applies with reviewer `bob` and yields `changes_requested`. -/
theorem C1_review_status_reduction_witness :
    get_review_status
      [⟨some "alice", some "APPROVED"⟩, ⟨some "bob", some "CHANGES_REQUESTED"⟩,
        ⟨some "alice", some "APPROVED"⟩] = "changes_requested" :=
  (C1_review_status_reduction
    [⟨some "alice", some "APPROVED"⟩, ⟨some "bob", some "CHANGES_REQUESTED"⟩,
      ⟨some "alice", some "APPROVED"⟩]).2.1 ⟨"bob", by decide⟩

/-! ### PR URL parsing — `github_api.py`, `PRMonitor.parse_pr_url`

The source matches `re.match(r'https?://github\.com/([^/]+)/([^/]+)/pull/(\d+)', url.strip())`.
`re.match` anchors at the start only (no `$`), so a match needs only a
prefix of the input.  Because each `[^/]+` group is followed by a literal
`/`, backtracking can never shorten a group below the full run of
non-slash characters (the character after a shortened group would not be a
slash), so the regex is equivalent to the deterministic take-to-next-slash
parser below; likewise the final greedy `(\d+)` is the maximal digit run.
Whitespace is modelled by `Char.isWhitespace`.  Python's `\d` on `str`
matches any Unicode decimal digit (general category Nd), modelled by
`isUnicodeDigit` below. -/

/-- The code-point ranges of Unicode general category Nd (decimal digits),
Unicode 15.0 — the character class Python's `re` module assigns to `\d` on
`str` patterns. -/
def ndRanges : List (ℕ × ℕ) :=
  [(0x30, 0x39), (0x660, 0x669), (0x6F0, 0x6F9), (0x7C0, 0x7C9),
   (0x966, 0x96F), (0x9E6, 0x9EF), (0xA66, 0xA6F), (0xAE6, 0xAEF),
   (0xB66, 0xB6F), (0xBE6, 0xBEF), (0xC66, 0xC6F), (0xCE6, 0xCEF),
   (0xD66, 0xD6F), (0xDE6, 0xDEF), (0xE50, 0xE59), (0xED0, 0xED9),
   (0xF20, 0xF29), (0x1040, 0x1049), (0x1090, 0x1099), (0x17E0, 0x17E9),
   (0x1810, 0x1819), (0x1946, 0x194F), (0x19D0, 0x19D9), (0x1A80, 0x1A89),
   (0x1A90, 0x1A99), (0x1B50, 0x1B59), (0x1BB0, 0x1BB9), (0x1C40, 0x1C49),
   (0x1C50, 0x1C59), (0xA620, 0xA629), (0xA8D0, 0xA8D9), (0xA900, 0xA909),
   (0xA9D0, 0xA9D9), (0xA9F0, 0xA9F9), (0xAA50, 0xAA59), (0xABF0, 0xABF9),
   (0xFF10, 0xFF19), (0x104A0, 0x104A9), (0x10D30, 0x10D39),
   (0x11066, 0x1106F), (0x110F0, 0x110F9), (0x11136, 0x1113F),
   (0x111D0, 0x111D9), (0x112F0, 0x112F9), (0x11450, 0x11459),
   (0x114D0, 0x114D9), (0x11650, 0x11659), (0x116C0, 0x116C9),
   (0x11730, 0x11739), (0x118E0, 0x118E9), (0x11950, 0x11959),
   (0x11C50, 0x11C59), (0x11D50, 0x11D59), (0x11DA0, 0x11DA9),
   (0x11F50, 0x11F59), (0x16A60, 0x16A69), (0x16AC0, 0x16AC9),
   (0x16B50, 0x16B59), (0x1D7CE, 0x1D7FF), (0x1E140, 0x1E149),
   (0x1E2F0, 0x1E2F9), (0x1E4F0, 0x1E4F9), (0x1E950, 0x1E959),
   (0x1FBF0, 0x1FBF9)]

/-- Unicode decimal digit (category Nd): the semantics of `\d` in the
source's pattern. -/
def isUnicodeDigit (c : Char) : Bool :=
  ndRanges.any (fun p => p.1 ≤ c.toNat && c.toNat ≤ p.2)

/-- Python `str.strip()` on the right: drop trailing whitespace. -/
def rstripChars (l : List Char) : List Char :=
  (l.reverse.dropWhile Char.isWhitespace).reverse

/-- Python `str.strip()`: drop leading, then trailing, whitespace. -/
def stripChars (l : List Char) : List Char :=
  rstripChars (l.dropWhile Char.isWhitespace)

/-- Match a literal sequence of characters at the head of the input,
returning the remainder on success. -/
def dropLit : List Char → List Char → Option (List Char)
  | [], rest => some rest
  | _ :: _, [] => none
  | c :: cs, d :: ds => if d = c then dropLit cs ds else none

/-- The anchored regex body `https?://github\.com/([^/]+)/([^/]+)/pull/(\d+)`
as a deterministic parser (see the equivalence argument above), applied to
an already-stripped input. -/
def parseCore (s : List Char) : Option (List Char × List Char × List Char) :=
  match dropLit "http".data s with
  | none => none
  | some s1 =>
    let s2 := match s1 with
      | 's' :: rest => rest
      | _ => s1
    match dropLit "://github.com/".data s2 with
    | none => none
    | some s3 =>
      let owner := s3.takeWhile (· ≠ '/')
      if owner = [] then none
      else
        match s3.dropWhile (· ≠ '/') with
        | '/' :: s4 =>
          let repo := s4.takeWhile (· ≠ '/')
          if repo = [] then none
          else
            match dropLit "/pull/".data (s4.dropWhile (· ≠ '/')) with
            | none => none
            | some s5 =>
              let num := s5.takeWhile isUnicodeDigit
              if num = [] then none else some (owner, repo, num)
        | _ => none

/-- Character-level `parse_pr_url`: strip, then match the regex at the
start of the input. -/
def parsePrUrlChars (input : List Char) : Option (List Char × List Char × List Char) :=
  parseCore (stripChars input)

/-- `PRMonitor.parse_pr_url`: parse a GitHub PR URL into
`(owner, repo, pull_number)`; `None` when the regex does not match. -/
def parse_pr_url (url : String) : Option (String × String × String) :=
  (parsePrUrlChars url.data).map (fun t => (⟨t.1⟩, ⟨t.2.1⟩, ⟨t.2.2⟩))

/-- The canonical PR URL template used by `main.py`'s `add_pr`
(`f"https://github.com/{owner}/{repo}/pull/{pr_id}"`). -/
def format_pr_url (owner repo number : String) : String :=
  "https://github.com/" ++ owner ++ "/" ++ repo ++ "/pull/" ++ number

theorem dropLit_append (lit rest : List Char) : dropLit lit (lit ++ rest) = some rest := by
  induction lit with
  | nil => rfl
  | cons c cs ih => simp [dropLit, ih]

theorem dropWhile_eq_self_of_head {p : Char → Bool} {l : List Char}
    (h : ∀ c, l.head? = some c → ¬ p c) : l.dropWhile p = l := by
  cases l with
  | nil => rfl
  | cons a t =>
    rw [List.dropWhile_cons]
    simp [h a rfl]

theorem not_isWhitespace_of_isDigit {c : Char} (h : c.isDigit = true) :
    c.isWhitespace = false := by
  simp only [Char.isDigit, Bool.and_eq_true, decide_eq_true_eq] at h
  obtain ⟨h1, h2⟩ := h
  by_contra hw
  rw [Bool.not_eq_false] at hw
  simp only [Char.isWhitespace, Bool.or_eq_true, decide_eq_true_eq] at hw
  rcases hw with ((h | h) | h) | h <;> (subst h; exact absurd h1 (by decide))

/-- ASCII digits are Unicode decimal digits (the first `ndRanges` entry). -/
theorem isUnicodeDigit_of_isDigit {c : Char} (h : c.isDigit = true) :
    isUnicodeDigit c = true := by
  simp only [Char.isDigit, Bool.and_eq_true, decide_eq_true_eq] at h
  obtain ⟨h1, h2⟩ := h
  have h1' : (48 : UInt32).toNat ≤ c.val.toNat := UInt32.le_def.mp h1
  have h2' : c.val.toNat ≤ (57 : UInt32).toNat := UInt32.le_def.mp h2
  apply List.any_eq_true.mpr
  refine ⟨(0x30, 0x39), by decide, ?_⟩
  simp only [Bool.and_eq_true, decide_eq_true_eq]
  exact ⟨h1', h2'⟩

theorem rstripChars_append {l₁ l₂ : List Char}
    (h : ∀ c, l₁.getLast? = some c → ¬ c.isWhitespace) :
    rstripChars (l₁ ++ l₂) = l₁ ++ rstripChars l₂ := by
  unfold rstripChars
  rw [List.reverse_append, List.dropWhile_append]
  by_cases he : (l₂.reverse.dropWhile Char.isWhitespace).isEmpty = true
  · rw [if_pos he]
    rw [List.isEmpty_iff] at he
    rw [he, List.reverse_nil, List.append_nil,
      dropWhile_eq_self_of_head (fun c hc => by
        rw [List.head?_reverse] at hc
        simpa using h c hc),
      List.reverse_reverse]
  · rw [if_neg he, List.reverse_append, List.reverse_reverse]

theorem stripChars_append {l₁ l₂ : List Char} {g : Char}
    (hh : l₁.head? = some g) (hw : ¬ g.isWhitespace)
    (hl : ∀ c, l₁.getLast? = some c → ¬ c.isWhitespace) :
    stripChars (l₁ ++ l₂) = l₁ ++ rstripChars l₂ := by
  unfold stripChars
  rw [dropWhile_eq_self_of_head, rstripChars_append hl]
  intro c hc
  rw [List.head?_append, hh] at hc
  have h2 : some g = some c := hc
  cases Option.some.inj h2
  simpa using hw

theorem head?_rstripChars (s : List Char) :
    (rstripChars s).head? = none ∨ (rstripChars s).head? = s.head? := by
  cases s with
  | nil => left; rfl
  | cons a t =>
    unfold rstripChars
    rw [List.reverse_cons, List.dropWhile_append]
    by_cases he : (t.reverse.dropWhile Char.isWhitespace).isEmpty = true
    · rw [if_pos he]
      by_cases ha : a.isWhitespace = true
      · left; simp [List.dropWhile_cons, ha]
      · right; simp [List.dropWhile_cons, ha]
    · rw [if_neg he, List.reverse_append]
      right
      simp

theorem takeWhile_dropWhile_stop {p : Char → Bool} (l₂ : List Char)
    (h2 : ∀ c, l₂.head? = some c → ¬ p c = true) :
    ∀ l₁ : List Char, (∀ c ∈ l₁, p c = true) →
      (l₁ ++ l₂).takeWhile p = l₁ ∧ (l₁ ++ l₂).dropWhile p = l₂ := by
  intro l₁
  induction l₁ with
  | nil =>
    intro _
    simp only [List.nil_append]
    cases l₂ with
    | nil => exact ⟨rfl, rfl⟩
    | cons a t =>
      have ha := h2 a rfl
      rw [List.takeWhile_cons, List.dropWhile_cons]
      simp [ha]
  | cons a t ih =>
    intro h1
    have hpa : p a = true := h1 a (List.mem_cons_self a t)
    obtain ⟨iht, ihd⟩ := ih (fun c hc => h1 c (List.mem_cons_of_mem _ hc))
    constructor
    · rw [List.cons_append, List.takeWhile_cons, if_pos hpa, iht]
    · rw [List.cons_append, List.dropWhile_cons, if_pos hpa, ihd]

theorem parseCore_canonical (o r n s' : List Char)
    (ho1 : o ≠ []) (ho2 : ∀ c ∈ o, c ≠ '/')
    (hr1 : r ≠ []) (hr2 : ∀ c ∈ r, c ≠ '/')
    (hn1 : n ≠ []) (hn2 : ∀ c ∈ n, c.isDigit = true)
    (hs : ∀ c, s'.head? = some c → ¬ isUnicodeDigit c = true) :
    parseCore ("https://github.com/".data ++
      (o ++ '/' :: (r ++ ("/pull/".data ++ (n ++ s'))))) = some (o, r, n) := by
  have e1 : "https://github.com/".data = "http".data ++ ('s' :: "://github.com/".data) := rfl
  have howner := takeWhile_dropWhile_stop (p := fun c => decide (c ≠ '/'))
    ('/' :: (r ++ ("/pull/".data ++ (n ++ s'))))
    (fun c hc => by cases Option.some.inj hc; simp)
    o (fun c hc => by simp [ho2 c hc])
  have hd2 : ("/pull/".data ++ (n ++ s')).head? = some '/' := rfl
  have hrepo := takeWhile_dropWhile_stop (p := fun c => decide (c ≠ '/'))
    ("/pull/".data ++ (n ++ s'))
    (fun c hc => by rw [hd2] at hc; cases Option.some.inj hc; simp)
    r (fun c hc => by simp [hr2 c hc])
  have hnum := takeWhile_dropWhile_stop (p := isUnicodeDigit) s' hs n
    (fun c hc => isUnicodeDigit_of_isDigit (hn2 c hc))
  clear e1 hd2
  obtain ⟨ho3, ho4⟩ := howner
  obtain ⟨hr3, hr4⟩ := hrepo
  obtain ⟨hn3, hn4⟩ := hnum
  simp only [List.append_assoc, List.cons_append, List.nil_append] at ho3 ho4 hr3 hr4 hn3
  simp only [parseCore, dropLit, List.append_assoc, List.cons_append, List.nil_append,
    List.append_eq, ite_true, ho3, ho4, hr3, hr4, hn3]
  simp only [if_neg ho1, if_neg hr1, if_neg hn1]

/-- The string `s ≠ ""` exactly when its character list is non-empty. -/
theorem data_ne_nil_of_ne_empty {s : String} (h : s ≠ "") : s.data ≠ [] := by
  intro hd
  apply h
  cases s with
  | mk d => cases hd; rfl

theorem getLast?_canonical (o r n : List Char) (hn1 : n ≠ []) :
    ("https://github.com/".data ++
      (o ++ '/' :: (r ++ ("/pull/".data ++ n)))).getLast? = n.getLast? := by
  rw [← List.append_assoc, List.getLast?_append_cons]
  have h1 : "/pull/".data ++ n ≠ [] := fun h => hn1 (List.append_eq_nil.mp h).2
  rw [show ('/' :: (r ++ ("/pull/".data ++ n))) = ['/'] ++ (r ++ ("/pull/".data ++ n)) from rfl,
    List.getLast?_append_of_ne_nil _ (fun h => h1 (List.append_eq_nil.mp h).2),
    List.getLast?_append_of_ne_nil _ h1,
    List.getLast?_append_of_ne_nil _ hn1]

theorem notWs_of_getLast_digits {n : List Char} (hn2 : ∀ c ∈ n, c.isDigit = true) :
    ∀ c, n.getLast? = some c → ¬ c.isWhitespace := by
  intro c hc hw
  obtain ⟨hne, he⟩ := List.mem_getLast?_eq_getLast (by rw [hc]; exact rfl)
  have : c ∈ n := he ▸ List.getLast_mem hne
  rw [not_isWhitespace_of_isDigit (hn2 c this)] at hw
  exact Bool.false_ne_true hw

theorem parseCore_canonical_nil (o r n : List Char)
    (ho1 : o ≠ []) (ho2 : ∀ c ∈ o, c ≠ '/')
    (hr1 : r ≠ []) (hr2 : ∀ c ∈ r, c ≠ '/')
    (hn1 : n ≠ []) (hn2 : ∀ c ∈ n, c.isDigit = true) :
    parseCore ("https://github.com/".data ++
      (o ++ '/' :: (r ++ ("/pull/".data ++ n)))) = some (o, r, n) := by
  have h := parseCore_canonical o r n [] ho1 ho2 hr1 hr2 hn1 hn2
    (fun c hc => nomatch hc)
  rwa [List.append_nil] at h

theorem format_pr_url_data (owner repo number : String) :
    (format_pr_url owner repo number).data =
      "https://github.com/".data ++
        (owner.data ++ '/' :: (repo.data ++ ("/pull/".data ++ number.data))) := by
  simp only [format_pr_url, String.data_append, List.append_assoc, List.singleton_append,
    List.cons_append, List.nil_append]

theorem stripChars_canonical (o r n : List Char)
    (hn1 : n ≠ []) (hn2 : ∀ c ∈ n, c.isDigit = true) (s2 : List Char) :
    stripChars (("https://github.com/".data ++ (o ++ '/' :: (r ++ ("/pull/".data ++ n)))) ++ s2)
      = ("https://github.com/".data ++ (o ++ '/' :: (r ++ ("/pull/".data ++ n))))
          ++ rstripChars s2 := by
  apply stripChars_append (g := 'h')
  · rw [List.head?_append]; rfl
  · decide
  · intro c hc
    rw [getLast?_canonical o r n hn1] at hc
    exact notWs_of_getLast_digits hn2 c hc

/-- C5: every canonical PR URL (non-empty slash-free owner and repo,
non-empty decimal-digit number) is parsed successfully by `parse_pr_url`,
and formatting the resulting triple with the canonical template reproduces
the identical input URL. -/
theorem C5_parse_format_roundtrip (owner repo number : String)
    (ho1 : owner ≠ "") (ho2 : ∀ c ∈ owner.data, c ≠ '/')
    (hr1 : repo ≠ "") (hr2 : ∀ c ∈ repo.data, c ≠ '/')
    (hn1 : number ≠ "") (hn2 : ∀ c ∈ number.data, c.isDigit = true) :
    parse_pr_url (format_pr_url owner repo number) = some (owner, repo, number) ∧
    ∀ t : String × String × String,
      parse_pr_url (format_pr_url owner repo number) = some t →
        format_pr_url t.1 t.2.1 t.2.2 = format_pr_url owner repo number := by
  have hfirst : parse_pr_url (format_pr_url owner repo number)
      = some (owner, repo, number) := by
    unfold parse_pr_url parsePrUrlChars
    rw [format_pr_url_data]
    have hstrip := stripChars_canonical owner.data repo.data number.data
      (data_ne_nil_of_ne_empty hn1) hn2 []
    rw [List.append_nil] at hstrip
    rw [hstrip, show rstripChars [] = [] from rfl, List.append_nil,
      parseCore_canonical_nil _ _ _ (data_ne_nil_of_ne_empty ho1) ho2
        (data_ne_nil_of_ne_empty hr1) hr2 (data_ne_nil_of_ne_empty hn1) hn2]
    rfl
  refine ⟨hfirst, ?_⟩
  intro t ht
  rw [hfirst] at ht
  cases Option.some.inj ht
  rfl

/-- Witness for C5 at the concrete URL `https://github.com/a/b/pull/12`. -/
theorem C5_parse_format_roundtrip_witness :
    parse_pr_url (format_pr_url "a" "b" "12") = some ("a", "b", "12") :=
  (C5_parse_format_roundtrip "a" "b" "12" (by decide) (by decide) (by decide)
    (by decide) (by decide) (by decide)).1

/-- C10: `parse_pr_url` matches only a head portion of the input: appending
any suffix that does not extend the digit run of the PR number (its first
character is not a Unicode decimal digit, the class `\d` matches) to a
canonical URL still parses, to the same triple (e.g. a trailing
`/files`). -/
theorem C10_parse_pr_url_trailing_suffix (owner repo number s : String)
    (ho1 : owner ≠ "") (ho2 : ∀ c ∈ owner.data, c ≠ '/')
    (hr1 : repo ≠ "") (hr2 : ∀ c ∈ repo.data, c ≠ '/')
    (hn1 : number ≠ "") (hn2 : ∀ c ∈ number.data, c.isDigit = true)
    (hs : ∀ c, s.data.head? = some c → ¬ isUnicodeDigit c = true) :
    parse_pr_url (format_pr_url owner repo number ++ s) = some (owner, repo, number) := by
  unfold parse_pr_url parsePrUrlChars
  rw [String.data_append, format_pr_url_data,
    stripChars_canonical owner.data repo.data number.data
      (data_ne_nil_of_ne_empty hn1) hn2 s.data]
  have hs2 : ∀ c, (rstripChars s.data).head? = some c → ¬ isUnicodeDigit c = true := by
    rcases head?_rstripChars s.data with h | h
    · intro c hc; rw [h] at hc; exact absurd hc (by simp)
    · intro c hc; rw [h] at hc; exact hs c hc
  have hassoc :
      ("https://github.com/".data ++
          (owner.data ++ '/' :: (repo.data ++ ("/pull/".data ++ number.data))))
        ++ rstripChars s.data
      = "https://github.com/".data ++
          (owner.data ++ '/' ::
            (repo.data ++ ("/pull/".data ++ (number.data ++ rstripChars s.data)))) := by
    simp [List.append_assoc, List.cons_append]
  rw [hassoc, parseCore_canonical _ _ _ _ (data_ne_nil_of_ne_empty ho1) ho2
    (data_ne_nil_of_ne_empty hr1) hr2 (data_ne_nil_of_ne_empty hn1) hn2 hs2]
  rfl

/-- Witness for C10: a trailing `/files` after a canonical URL is accepted
and parses to the same triple. -/
theorem C10_parse_pr_url_trailing_suffix_witness :
    parse_pr_url (format_pr_url "a" "b" "12" ++ "/files") = some ("a", "b", "12") :=
  C10_parse_pr_url_trailing_suffix "a" "b" "12" "/files" (by decide) (by decide)
    (by decide) (by decide) (by decide) (by decide)
    (by intro c hc
        rw [show ("/files".data).head? = some '/' from rfl] at hc
        cases Option.some.inj hc
        decide)

/-! ### Watch-list model — `main.py`, `PRMonitorGUI`

`pr_list` entries are dicts `{'owner', 'repo', 'pull_number', 'url', 'status'}`.
`PRStatus` records the nine status keys written by `load_config` and
`on_pr_error` (the keys the persistence and error paths manipulate);
a full fetch produces further keys (`mergeable`, `mergeable_state`,
`draft`) that are never persisted, which the round-trip analysis models
through `created_at` (also not persisted, reloaded as `''`). -/

/-- Status snapshot dict, projected to the keys used by the persistence
and error-recovery code paths. -/
structure PRStatus where
  title         : String
  author        : String
  state         : String
  merged        : Bool
  ci_status     : String
  review_status : String
  updated_at    : String
  created_at    : String
  url           : String
deriving DecidableEq, Repr

/-- One `pr_list` entry. -/
structure PRInfo where
  owner       : String
  repo        : String
  pull_number : String
  url         : String
  status      : Option PRStatus
deriving DecidableEq, Repr

/-- The update loop shared by `on_pr_data_fetched` and `on_pr_error`:
`for pr in self.pr_list: if pr['url'] == pr_url: pr['status'] = st; break`. -/
def setStatusFirstMatch (pr_url : String) (st : PRStatus) : List PRInfo → List PRInfo
  | [] => []
  | pr :: rest =>
    if pr.url = pr_url then { pr with status := some st } :: rest
    else pr :: setStatusFirstMatch pr_url st rest

/-- `on_pr_data_fetched`, restricted to its effect on `pr_list`: replace
wholesale the status of the first entry whose url matches. -/
def on_pr_data_fetched (prList : List PRInfo) (pr_url : String) (pr_status : PRStatus) :
    List PRInfo :=
  setStatusFirstMatch pr_url pr_status prList

/-- The synthetic status `on_pr_error` writes for a failed fetch. -/
def errorStatus (pr_url error_msg : String) : PRStatus :=
  { title := "错误: " ++ error_msg
    state := "error"
    merged := false
    author := "N/A"
    created_at := "N/A"
    updated_at := "N/A"
    ci_status := "unknown"
    review_status := "unknown"
    url := pr_url }

/-- `on_pr_error`, restricted to its effect on `pr_list`. -/
def on_pr_error (prList : List PRInfo) (pr_url error_msg : String) : List PRInfo :=
  setStatusFirstMatch pr_url (errorStatus pr_url error_msg) prList

theorem setStatusFirstMatch_length (u : String) (st : PRStatus) (l : List PRInfo) :
    (setStatusFirstMatch u st l).length = l.length := by
  induction l with
  | nil => rfl
  | cons pr rest ih =>
    rw [setStatusFirstMatch]
    by_cases h : pr.url = u
    · rw [if_pos h]; rfl
    · rw [if_neg h]; simpa using ih

theorem setStatusFirstMatch_absent {u : String} {st : PRStatus} {l : List PRInfo}
    (h : ∀ pr ∈ l, pr.url ≠ u) : setStatusFirstMatch u st l = l := by
  induction l with
  | nil => rfl
  | cons pr rest ih =>
    rw [setStatusFirstMatch, if_neg (h pr (List.mem_cons_self pr rest)),
      ih (fun q hq => h q (List.mem_cons_of_mem _ hq))]

theorem setStatusFirstMatch_found {u : String} {st : PRStatus} {l₁ l₂ : List PRInfo}
    {pr : PRInfo} (h₁ : ∀ q ∈ l₁, q.url ≠ u) (h₂ : pr.url = u) :
    setStatusFirstMatch u st (l₁ ++ pr :: l₂) =
      l₁ ++ { pr with status := some st } :: l₂ := by
  induction l₁ with
  | nil => simp [setStatusFirstMatch, h₂]
  | cons q t ih =>
    rw [List.cons_append, setStatusFirstMatch,
      if_neg (h₁ q (List.mem_cons_self q t)),
      ih (fun q' hq' => h₁ q' (List.mem_cons_of_mem _ hq')), List.cons_append]

/-- C9: `on_pr_data_fetched` replaces wholesale the status of the first
entry whose url matches (identity fields, url, every other entry, and the
length/order of the list are unchanged); when no entry matches, the watch
list is unchanged and no error is raised. -/
theorem C9_update_status_frame (l : List PRInfo) (u : String) (st : PRStatus) :
    (on_pr_data_fetched l u st).length = l.length ∧
    ((∀ pr ∈ l, pr.url ≠ u) → on_pr_data_fetched l u st = l) ∧
    (∀ l₁ pr l₂, l = l₁ ++ pr :: l₂ → (∀ q ∈ l₁, q.url ≠ u) → pr.url = u →
      on_pr_data_fetched l u st =
        l₁ ++ { pr with status := some st } :: l₂) := by
  refine ⟨setStatusFirstMatch_length u st l, fun h => setStatusFirstMatch_absent h, ?_⟩
  intro l₁ pr l₂ hdec h₁ h₂
  rw [on_pr_data_fetched, hdec, setStatusFirstMatch_found h₁ h₂]

/-- Witness for C9: concrete two-entry list, fetch result for the second
entry's url replaces only that status. -/
theorem C9_update_status_frame_witness :
    on_pr_data_fetched
      [⟨"a", "b", "1", "https://github.com/a/b/pull/1", none⟩,
       ⟨"a", "b", "2", "https://github.com/a/b/pull/2", none⟩]
      "https://github.com/a/b/pull/2"
      (errorStatus "https://github.com/a/b/pull/2" "m")
    = [⟨"a", "b", "1", "https://github.com/a/b/pull/1", none⟩,
       ⟨"a", "b", "2", "https://github.com/a/b/pull/2",
        some (errorStatus "https://github.com/a/b/pull/2" "m")⟩] :=
  (C9_update_status_frame _ _ _).2.2
    [⟨"a", "b", "1", "https://github.com/a/b/pull/1", none⟩]
    ⟨"a", "b", "2", "https://github.com/a/b/pull/2", none⟩ [] rfl
    (by decide) (by decide)

/-- C7: a metadata-fetch failure for a watched PR replaces that entry's
status with a synthetic one whose `state` is `"error"`, whose title embeds
the error message, and whose `ci_status`/`review_status` are `"unknown"`;
the entry stays in the list and no other entry changes. -/
theorem C7_error_status_synthesis (l : List PRInfo) (u msg : String) :
    (on_pr_error l u msg).length = l.length ∧
    (∀ l₁ pr l₂, l = l₁ ++ pr :: l₂ → (∀ q ∈ l₁, q.url ≠ u) → pr.url = u →
      on_pr_error l u msg =
        l₁ ++ { pr with status := some (errorStatus u msg) } :: l₂) ∧
    (errorStatus u msg).state = "error" ∧
    (errorStatus u msg).title = "错误: " ++ msg ∧
    (errorStatus u msg).ci_status = "unknown" ∧
    (errorStatus u msg).review_status = "unknown" := by
  refine ⟨setStatusFirstMatch_length _ _ l, ?_, rfl, rfl, rfl, rfl⟩
  intro l₁ pr l₂ hdec h₁ h₂
  rw [on_pr_error, hdec, setStatusFirstMatch_found h₁ h₂]

/-- Witness for C7: a failed fetch on a singleton list yields the synthetic
error status in place. -/
theorem C7_error_status_synthesis_witness :
    on_pr_error [⟨"a", "b", "1", "https://github.com/a/b/pull/1", none⟩]
      "https://github.com/a/b/pull/1" "boom"
    = [⟨"a", "b", "1", "https://github.com/a/b/pull/1",
        some (errorStatus "https://github.com/a/b/pull/1" "boom")⟩] :=
  (C7_error_status_synthesis _ _ _).2.1 []
    ⟨"a", "b", "1", "https://github.com/a/b/pull/1", none⟩ [] rfl
    (by decide) (by decide)

/-! ### Adding and removing watch entries — `main.py` `add_pr` / `remove_pr` -/

/-- Python `str.strip()` at string level. -/
def pyStrip (s : String) : String := ⟨stripChars s.data⟩

/-- Python `str.isdigit()` (ASCII model): non-empty and all digits. -/
def pyIsDigit (s : String) : Bool := s ≠ "" && s.data.all Char.isDigit

/-- Outcome of `add_pr`: which warning dialog fires, or a successful add. -/
inductive AddOutcome where
  | warnOwner | warnRepo | warnId | warnDuplicate | added
deriving DecidableEq, Repr

/-- `add_pr`: strip the three inputs, validate them, reject a url already
present in `pr_list`, otherwise append the new entry (with the status from
the immediate synchronous fetch if it succeeded, `None` if it raised). -/
def add_pr (prList : List PRInfo) (owner repo pr_id : String)
    (fetched : Option PRStatus) : AddOutcome × List PRInfo :=
  let owner := pyStrip owner
  let repo := pyStrip repo
  let pr_id := pyStrip pr_id
  if owner = "" then (.warnOwner, prList)
  else if repo = "" ∨ repo = "加载中..." ∨ repo = "无可用仓库" then (.warnRepo, prList)
  else if pr_id = "" ∨ pyIsDigit pr_id = false then (.warnId, prList)
  else
    let url := format_pr_url owner repo pr_id
    if prList.any (fun pr => pr.url = url) then (.warnDuplicate, prList)
    else (.added, prList ++ [⟨owner, repo, pr_id, url, fetched⟩])

/-- C6 counterexample: the duplicate check compares the freshly formatted
canonical URL against each stored `url` string.  An entry holding the same
identity `(a, b, 1)` under a non-canonical URL (as produced by loading a
legacy watch-list entry such as `https://github.com/a/b/pull/1/files`) is
not detected, so the add succeeds and the list grows, refuting the claim
as stated. -/
theorem C6_duplicate_add_counterexample :
    (⟨"a", "b", "1", "https://github.com/a/b/pull/1/files", none⟩ : PRInfo).owner = "a" ∧
    (⟨"a", "b", "1", "https://github.com/a/b/pull/1/files", none⟩ : PRInfo).repo = "b" ∧
    (⟨"a", "b", "1", "https://github.com/a/b/pull/1/files", none⟩ : PRInfo).pull_number = "1" ∧
    (add_pr [⟨"a", "b", "1", "https://github.com/a/b/pull/1/files", none⟩]
        "a" "b" "1" none).1 ≠ AddOutcome.warnDuplicate ∧
    (add_pr [⟨"a", "b", "1", "https://github.com/a/b/pull/1/files", none⟩]
        "a" "b" "1" none).2
      ≠ [⟨"a", "b", "1", "https://github.com/a/b/pull/1/files", none⟩] := by
  refine ⟨rfl, rfl, rfl, ?_, ?_⟩ <;> decide

/-- C6 (amended): adding a PR whose canonical URL equals the `url` of some
entry already in the list fails with the duplicate warning and leaves the
watch list entirely unchanged.  (The source keys the duplicate check on the
stored URL string, which coincides with the identity exactly when every
stored URL is canonical.) -/
theorem C6_duplicate_add_rejected (l : List PRInfo) (owner repo pr_id : String)
    (fetched : Option PRStatus)
    (how : pyStrip owner ≠ "")
    (hre : ¬ (pyStrip repo = "" ∨ pyStrip repo = "加载中..." ∨ pyStrip repo = "无可用仓库"))
    (hid : ¬ (pyStrip pr_id = "" ∨ pyIsDigit (pyStrip pr_id) = false))
    (hdup : ∃ pr ∈ l, pr.url = format_pr_url (pyStrip owner) (pyStrip repo) (pyStrip pr_id)) :
    add_pr l owner repo pr_id fetched = (.warnDuplicate, l) := by
  have hany : l.any
      (fun pr => pr.url = format_pr_url (pyStrip owner) (pyStrip repo) (pyStrip pr_id))
      = true := by
    obtain ⟨pr, hmem, hurl⟩ := hdup
    exact List.any_eq_true.mpr ⟨pr, hmem, by simp [hurl]⟩
  simp only [add_pr, if_neg how, if_neg hre, if_neg hid, hany, if_pos, ite_true]

/-- Witness for C6's amended claim: re-adding `(a, b, 1)` over its canonical
URL is rejected and the list is unchanged. -/
theorem C6_duplicate_add_rejected_witness :
    add_pr [⟨"a", "b", "1", "https://github.com/a/b/pull/1", none⟩] "a" "b" "1" none
      = (.warnDuplicate, [⟨"a", "b", "1", "https://github.com/a/b/pull/1", none⟩]) :=
  C6_duplicate_add_rejected _ "a" "b" "1" none (by decide) (by decide) (by decide)
    ⟨⟨"a", "b", "1", "https://github.com/a/b/pull/1", none⟩, by decide⟩

/-- The deletion loop of `remove_pr`:
`for row in sorted(selected_rows, reverse=True): if row < len(pr_list): del pr_list[row]`. -/
def delRows {α : Type} : List ℕ → List α → List α
  | [], l => l
  | row :: rest, l => delRows rest (if row < l.length then l.eraseIdx row else l)

/-- `remove_pr`, restricted to its effect on `pr_list`: delete the selected
set of row indices, processed highest-first. -/
def remove_pr {α : Type} (selected : Finset ℕ) (l : List α) : List α :=
  delRows ((selected.sort (· ≤ ·)).reverse) l

/-- Specification-side: keep exactly the entries whose position (counted
from `i`) is not in `rows`. -/
def keepAux {α : Type} (rows : List ℕ) : ℕ → List α → List α
  | _, [] => []
  | i, a :: t => if i ∈ rows then keepAux rows (i+1) t else a :: keepAux rows (i+1) t

/-- Same, with the selected positions given as a finite set. -/
def keepAuxFin {α : Type} (S : Finset ℕ) : ℕ → List α → List α
  | _, [] => []
  | i, a :: t => if i ∈ S then keepAuxFin S (i+1) t else a :: keepAuxFin S (i+1) t

/-- Specification-side description of `remove_pr`: the sublist of entries
whose index is not selected. -/
def keepNotSelected {α : Type} (S : Finset ℕ) (l : List α) : List α :=
  keepAuxFin S 0 l

theorem keepAux_high {α : Type} {rows : List ℕ} :
    ∀ (l : List α) (i : ℕ), (∀ x ∈ rows, x < i) → keepAux rows i l = l := by
  intro l
  induction l with
  | nil => intro i _; rfl
  | cons a t ih =>
    intro i hi
    rw [keepAux, if_neg (fun hmem => Nat.lt_irrefl i (hi i hmem)),
      ih (i+1) (fun x hx => Nat.lt_trans (hi x hx) (Nat.lt_succ_self i))]

theorem keepAux_head_big {α : Type} {r : ℕ} {rest : List ℕ} :
    ∀ (l : List α) (i : ℕ), i + l.length ≤ r → keepAux (r :: rest) i l = keepAux rest i l := by
  intro l
  induction l with
  | nil => intro i _; rfl
  | cons a t ih =>
    intro i hi
    have hir : i ≠ r := by simp at hi; omega
    have hmem : (i ∈ r :: rest) ↔ (i ∈ rest) := by
      rw [List.mem_cons]
      exact ⟨fun h => h.elim (fun h' => absurd h' hir) id, Or.inr⟩
    have hrec : keepAux (r :: rest) (i+1) t = keepAux rest (i+1) t := by
      apply ih
      simp at hi ⊢
      omega
    rw [keepAux, keepAux]
    by_cases hm : i ∈ rest
    · rw [if_pos (hmem.mpr hm), if_pos hm, hrec]
    · rw [if_neg (fun h => hm (hmem.mp h)), if_neg hm, hrec]

theorem keepAux_eraseIdx {α : Type} {r : ℕ} {rest : List ℕ}
    (hrest : ∀ x ∈ rest, x < r) :
    ∀ (l : List α) (i j : ℕ), i + j = r → j < l.length →
      keepAux rest i (l.eraseIdx j) = keepAux (r :: rest) i l := by
  intro l
  induction l with
  | nil => intro i j _ hj; exact absurd hj (by simp)
  | cons a t ih =>
    intro i j hij hj
    cases j with
    | zero =>
      have hir : i = r := by omega
      rw [List.eraseIdx_cons_zero, keepAux,
        if_pos (by rw [List.mem_cons]; exact Or.inl hir),
        keepAux_high t i (fun x hx => hir ▸ hrest x hx),
        keepAux_high t (i+1) (fun x hx => by
          rcases List.mem_cons.mp hx with h | h
          · omega
          · have := hrest x h; omega)]
    | succ j' =>
      have hir : i ≠ r := by omega
      have hmem : (i ∈ r :: rest) ↔ (i ∈ rest) := by
        rw [List.mem_cons]
        exact ⟨fun h => h.elim (fun h' => absurd h' hir) id, Or.inr⟩
      have hrec : keepAux rest (i+1) (t.eraseIdx j') = keepAux (r :: rest) (i+1) t :=
        ih (i+1) j' (by omega) (by simpa using hj)
      rw [List.eraseIdx_cons_succ, keepAux, keepAux]
      by_cases hm : i ∈ rest
      · rw [if_pos hm, if_pos (hmem.mpr hm), hrec]
      · rw [if_neg hm, if_neg (fun h => hm (hmem.mp h)), hrec]

theorem delRows_eq_keepAux {α : Type} :
    ∀ (rows : List ℕ), rows.Pairwise (· > ·) →
      ∀ l : List α, delRows rows l = keepAux rows 0 l := by
  intro rows
  induction rows with
  | nil => intro _ l; rw [delRows, keepAux_high l 0 (by simp)]
  | cons r rest ih =>
    intro hpair l
    obtain ⟨hhead, htail⟩ := List.pairwise_cons.mp hpair
    rw [delRows]
    by_cases hlt : r < l.length
    · rw [if_pos hlt, ih htail, keepAux_eraseIdx hhead l 0 r (by omega) hlt]
    · rw [if_neg hlt, ih htail, keepAux_head_big l 0 (by omega)]

theorem keepAux_eq_keepAuxFin {α : Type} {rows : List ℕ} {S : Finset ℕ}
    (hmem : ∀ x, x ∈ rows ↔ x ∈ S) :
    ∀ (l : List α) (i : ℕ), keepAux rows i l = keepAuxFin S i l := by
  intro l
  induction l with
  | nil => intro i; rfl
  | cons a t ih =>
    intro i
    rw [keepAux, keepAuxFin]
    by_cases hm : i ∈ S
    · rw [if_pos ((hmem i).mpr hm), if_pos hm, ih]
    · rw [if_neg (fun h => hm ((hmem i).mp h)), if_neg hm, ih]

theorem keepAuxFin_out_of_range {α : Type} {S : Finset ℕ} :
    ∀ (l : List α) (i : ℕ), (∀ j ∈ S, i + l.length ≤ j) → keepAuxFin S i l = l := by
  intro l
  induction l with
  | nil => intro _ _; rfl
  | cons a t ih =>
    intro i hi
    have : i ∉ S := fun hm => by have := hi i hm; simp at this
    rw [keepAuxFin, if_neg this, ih (i+1) (fun j hj => by have := hi j hj; simp at this; omega)]

/-- C8: `remove_pr` removes exactly the in-range selected positions
(processing indices highest-first, so earlier deletions do not shift later
targets), silently ignores out-of-range indices, and `removeAt {0,2}` on a
3-entry list leaves exactly the entry that was at index 1. -/
theorem C8_remove_selected_rows {α : Type} (S : Finset ℕ) (l : List α) :
    remove_pr S l = keepNotSelected S l ∧
    ((∀ j ∈ S, l.length ≤ j) → remove_pr S l = l) ∧
    (∀ x y z : α, remove_pr {0, 2} [x, y, z] = [y]) := by
  have hmain : ∀ (S : Finset ℕ) (l : List α), remove_pr S l = keepNotSelected S l := by
    intro S l
    have hsorted : ((S.sort (· ≤ ·)).reverse).Pairwise (· > ·) := by
      rw [List.pairwise_reverse]
      exact S.sort_sorted_lt
    rw [remove_pr, delRows_eq_keepAux _ hsorted, keepNotSelected,
      keepAux_eq_keepAuxFin (fun x => by rw [List.mem_reverse, Finset.mem_sort])]
  refine ⟨hmain S l, ?_, ?_⟩
  · intro hout
    rw [hmain S l, keepNotSelected, keepAuxFin_out_of_range l 0 (by simpa using hout)]
  · intro x y z
    rw [hmain {0, 2} [x, y, z]]
    have h0 : (0 : ℕ) ∈ ({0, 2} : Finset ℕ) := by decide
    have h1 : (1 : ℕ) ∉ ({0, 2} : Finset ℕ) := by decide
    have h2 : (2 : ℕ) ∈ ({0, 2} : Finset ℕ) := by decide
    rw [keepNotSelected, keepAuxFin, if_pos h0, keepAuxFin, if_neg h1,
      keepAuxFin, if_pos h2, keepAuxFin]

/-- Witness for C8: removing the out-of-range selection `{5}` from a
one-entry list is a no-op. -/
theorem C8_remove_selected_rows_witness :
    remove_pr {5} [(37 : ℕ)] = [37] :=
  (C8_remove_selected_rows {5} [(37 : ℕ)]).2.1 (by decide)

/-! ### Single-flight fetch cycle — `main.py` `fetch_and_display`

`threads` is the spawn history of `FetchThread`s (`true` = still running);
the Python `fetch_thread` attribute always refers to the most recently
created one, so the in-flight check `self.fetch_thread and
self.fetch_thread.isRunning()` inspects the last element. -/

/-- The GUI state fields involved in the fetch cycle. -/
structure GuiState where
  monitoring        : Bool
  pr_list           : List PRInfo
  threads           : List Bool
  remaining_seconds : ℕ
  interval_seconds  : ℕ
deriving DecidableEq, Repr

/-- `self.fetch_thread and self.fetch_thread.isRunning()`. -/
def threadRunning (s : GuiState) : Bool := (s.threads.getLast?).getD false

/-- `fetch_and_display`: return unchanged when not monitoring or no PRs;
return unchanged when the previous cycle's thread is still running;
otherwise reset the countdown and start a new fetch thread. -/
def fetch_and_display (s : GuiState) : GuiState :=
  if ¬ s.monitoring ∨ s.pr_list = [] then s
  else if threadRunning s then s
  else { s with remaining_seconds := s.interval_seconds,
                threads := s.threads ++ [true] }

/-- Scheduler-relevant events: a timer tick, a click on the manual-refresh
button, and the completion of a previously spawned fetch thread. -/
inductive GuiEvent where
  | tick
  | manualRefresh
  | threadDone (i : ℕ)
deriving DecidableEq, Repr

/-- Event semantics: `tick` runs `fetch_and_display`; `manual_refresh` runs
it when monitoring with a non-empty list (else only shows a dialog);
`threadDone i` marks the i-th spawned thread finished. -/
def guiStep (s : GuiState) : GuiEvent → GuiState
  | .tick => fetch_and_display s
  | .manualRefresh =>
    if s.monitoring = true ∧ s.pr_list ≠ [] then fetch_and_display s else s
  | .threadDone i => { s with threads := s.threads.set i false }

/-- Invariant: every spawned thread except possibly the last has finished. -/
def OnlyLastRuns (s : GuiState) : Prop :=
  ∀ i, i + 1 < s.threads.length → s.threads[i]? = some false

theorem fetch_and_display_noop {s : GuiState} (h : threadRunning s = true) :
    fetch_and_display s = s := by
  unfold fetch_and_display
  by_cases hg : ¬ s.monitoring = true ∨ s.pr_list = []
  · rw [if_pos hg]
  · rw [if_neg hg, if_pos h]

theorem onlyLastRuns_fetch {s : GuiState} (h : OnlyLastRuns s) :
    OnlyLastRuns (fetch_and_display s) := by
  unfold fetch_and_display
  by_cases hg : ¬ s.monitoring = true ∨ s.pr_list = []
  · rwa [if_pos hg]
  · rw [if_neg hg]
    by_cases hrun : threadRunning s = true
    · rwa [if_pos hrun]
    · rw [if_neg hrun]
      intro i hi
      simp only [List.length_append, List.length_cons, List.length_nil] at hi
      have hilt : i < s.threads.length := by omega
      show (s.threads ++ [true])[i]? = some false
      rw [List.getElem?_append, if_pos hilt]
      by_cases hlast : i + 1 < s.threads.length
      · exact h i hlast
      · have hieq : i = s.threads.length - 1 := by omega
        have hne : s.threads ≠ [] := by
          intro he
          rw [he] at hilt
          exact absurd hilt (by simp)
        have hgl : s.threads.getLast? = some false := by
          rcases hl : s.threads.getLast? with _ | b
          · rw [List.getLast?_eq_none_iff] at hl
            exact absurd hl hne
          · cases b
            · rfl
            · rw [threadRunning, hl] at hrun
              exact absurd rfl hrun
        rw [List.getLast?_eq_getElem?] at hgl
        rw [hieq]
        exact hgl

theorem onlyLastRuns_guiStep {s : GuiState} (e : GuiEvent) (h : OnlyLastRuns s) :
    OnlyLastRuns (guiStep s e) := by
  cases e with
  | tick => exact onlyLastRuns_fetch h
  | manualRefresh =>
    rw [guiStep]
    by_cases hg : s.monitoring = true ∧ s.pr_list ≠ []
    · rw [if_pos hg]; exact onlyLastRuns_fetch h
    · rwa [if_neg hg]
  | threadDone j =>
    intro i hi
    simp only [guiStep, List.length_set] at hi ⊢
    rw [List.getElem?_set]
    by_cases hji : j = i
    · simp [hji, show i < s.threads.length by omega]
    · simp only [hji, if_false, ite_false]
      exact h i hi

theorem onlyLastRuns_foldl {s : GuiState} (evs : List GuiEvent) (h : OnlyLastRuns s) :
    OnlyLastRuns (evs.foldl guiStep s) := by
  induction evs generalizing s with
  | nil => exact h
  | cons e t ih => exact ih (onlyLastRuns_guiStep e h)

/-- C2: invoking the fetch cycle while the previous cycle's thread is still
running is a complete no-op (whether from the timer tick or from a manual
refresh), and along every sequence of ticks, manual refreshes and thread
completions starting from the boot state (no thread yet), at most one
fetch thread is running at any time. -/
theorem C2_single_flight :
    (∀ s : GuiState, threadRunning s = true →
      fetch_and_display s = s ∧ guiStep s .tick = s ∧ guiStep s .manualRefresh = s) ∧
    (∀ (s₀ : GuiState) (evs : List GuiEvent), s₀.threads = [] →
      ∀ i j : ℕ, ((evs.foldl guiStep s₀).threads)[i]? = some true →
             ((evs.foldl guiStep s₀).threads)[j]? = some true → i = j) := by
  constructor
  · intro s h
    refine ⟨fetch_and_display_noop h, fetch_and_display_noop h, ?_⟩
    rw [guiStep]
    by_cases hg : s.monitoring = true ∧ s.pr_list ≠ []
    · rw [if_pos hg, fetch_and_display_noop h]
    · rw [if_neg hg]
  · intro s₀ evs h0 i j hi hj
    have hinv : OnlyLastRuns (evs.foldl guiStep s₀) := by
      apply onlyLastRuns_foldl
      intro i hi
      rw [h0] at hi
      exact absurd hi (by simp)
    set l := (evs.foldl guiStep s₀).threads with hl
    have hilen : i < l.length := by
      rcases List.getElem?_eq_some.mp hi with ⟨h, -⟩
      exact h
    have hjlen : j < l.length := by
      rcases List.getElem?_eq_some.mp hj with ⟨h, -⟩
      exact h
    have hi1 : ¬ i + 1 < l.length := by
      intro hlt
      rw [hinv i hlt] at hi
      exact absurd (Option.some.inj hi) (by simp)
    have hj1 : ¬ j + 1 < l.length := by
      intro hlt
      rw [hinv j hlt] at hj
      exact absurd (Option.some.inj hj) (by simp)
    omega

/-- Witness for C2: with monitoring on, one watched PR and the previous
fetch thread still running, a tick leaves the state untouched. -/
theorem C2_single_flight_witness :
    fetch_and_display
      ⟨true, [⟨"a", "b", "1", "https://github.com/a/b/pull/1", none⟩], [true], 7, 30⟩
    = ⟨true, [⟨"a", "b", "1", "https://github.com/a/b/pull/1", none⟩], [true], 7, 30⟩ :=
  (C2_single_flight.1
    ⟨true, [⟨"a", "b", "1", "https://github.com/a/b/pull/1", none⟩], [true], 7, 30⟩
    (by decide)).1

/-! ### Error taxonomy — `github_api.py` `get_pr_info`

All failure paths raise the single exception class `GitHubAPIError`, whose
value is the human-readable message string; the message is what callers
receive (and `on_pr_error` displays).  The embedding therefore models the
error value as that string. -/

/-- Outcome of the underlying HTTP request for the PR-metadata call. -/
inductive HttpResult where
  | response (status_code : ℕ) (body : String)
  | timedOut
  | connectionError
  | requestError (msg : String)
deriving DecidableEq, Repr

/-- Decimal digit character (model of Python's decimal rendering). -/
def digitChar10 (d : ℕ) : Char :=
  match d with
  | 0 => '0' | 1 => '1' | 2 => '2' | 3 => '3' | 4 => '4'
  | 5 => '5' | 6 => '6' | 7 => '7' | 8 => '8' | _ => '9'

/-- Decimal rendering of a natural number (model of Python `str(int)`). -/
def toDecimal (n : ℕ) : List Char :=
  if _h : n < 10 then [digitChar10 n]
  else toDecimal (n / 10) ++ [digitChar10 (n % 10)]
termination_by n
decreasing_by exact Nat.div_lt_self (by omega) (by omega)

/-- String-level decimal rendering. -/
def natToDecStr (n : ℕ) : String := ⟨toDecimal n⟩

/-- `get_pr_info` as a function of the HTTP outcome: 404, 403 and other
non-200 statuses and the three request exceptions each raise
`GitHubAPIError` with a distinct message; 200 returns the body. -/
def get_pr_info (r : HttpResult) : Except String String :=
  match r with
  | .response code body =>
    if code = 404 then .error "PR不存在或仓库不可访问"
    else if code = 403 then .error "API速率限制已达上限，请稍后再试"
    else if code ≠ 200 then .error ("API请求失败: " ++ natToDecStr code)
    else .ok body
  | .timedOut => .error "请求超时，请检查网络连接"
  | .connectionError => .error "网络连接失败"
  | .requestError m => .error ("请求失败: " ++ m)

/-- The specification's five error outcomes for the metadata call. -/
inductive FetchErrKind where
  | notFound
  | rateLimited
  | unexpectedStatus (code : ℕ)
  | timedOutErr
  | networkErr
deriving DecidableEq, Repr

/-- The error value (message) the code produces for each outcome. -/
def errMessage : FetchErrKind → String
  | .notFound => "PR不存在或仓库不可访问"
  | .rateLimited => "API速率限制已达上限，请稍后再试"
  | .unexpectedStatus c => "API请求失败: " ++ natToDecStr c
  | .timedOutErr => "请求超时，请检查网络连接"
  | .networkErr => "网络连接失败"

/-- Decimal decoding, inverse of `toDecimal`. -/
def decodeDec (cs : List Char) : ℕ :=
  cs.foldl (fun acc c => acc * 10 + (c.toNat - 48)) 0

/-- A caller-side classifier: recover which of the five outcomes an error
value denotes (and the status code for `unexpectedStatus`). -/
def classify_error (msg : String) : FetchErrKind :=
  if msg = "PR不存在或仓库不可访问" then .notFound
  else if msg = "API速率限制已达上限，请稍后再试" then .rateLimited
  else if msg = "请求超时，请检查网络连接" then .timedOutErr
  else if msg = "网络连接失败" then .networkErr
  else .unexpectedStatus (decodeDec (msg.data.drop 9))

theorem digitChar10_val {d : ℕ} (h : d < 10) : (digitChar10 d).toNat - 48 = d := by
  interval_cases d <;> decide

theorem decodeDec_append (l : List Char) (c : Char) :
    decodeDec (l ++ [c]) = (decodeDec l) * 10 + (c.toNat - 48) := by
  unfold decodeDec
  rw [List.foldl_append]
  rfl

theorem decodeDec_toDecimal : ∀ n : ℕ, decodeDec (toDecimal n) = n := by
  intro n
  induction n using Nat.strong_induction_on with
  | _ n ih =>
    rw [toDecimal]
    by_cases h : n < 10
    · rw [dif_pos h]
      have hv := digitChar10_val h
      simp [decodeDec, hv]
    · rw [dif_neg h, decodeDec_append,
        ih (n / 10) (Nat.div_lt_self (by omega) (by omega))]
      have hv := digitChar10_val (Nat.mod_lt n (show 0 < 10 by omega))
      omega

theorem classify_errMessage : ∀ k : FetchErrKind, classify_error (errMessage k) = k := by
  intro k
  cases k with
  | notFound => decide
  | rateLimited => decide
  | timedOutErr => decide
  | networkErr => decide
  | unexpectedStatus c =>
    have hne : ∀ fixed : String,
        ("API请求失败: " ++ natToDecStr c).data ≠ fixed.data →
        ("API请求失败: " ++ natToDecStr c) ≠ fixed :=
      fun fixed hd he => hd (congrArg String.data he)
    show classify_error ("API请求失败: " ++ natToDecStr c) = .unexpectedStatus c
    rw [classify_error, if_neg, if_neg, if_neg, if_neg]
    · rw [show ("API请求失败: " ++ natToDecStr c).data
          = "API请求失败: ".data ++ toDecimal c from String.data_append _ _,
        show (9 : ℕ) = ("API请求失败: ".data).length from rfl,
        List.drop_left, decodeDec_toDecimal]
    all_goals
      exact hne _ (by rw [String.data_append]; intro hd; simp at hd)

/-- C4: on a failing metadata fetch, `get_pr_info` produces one of five
distinct error outcomes — NotFound (404), RateLimited (403),
UnexpectedStatus(code) (other non-200), Timeout, NetworkError — and the
outcomes (including the embedded status code) are distinguishable from the
error value by the caller: a classifier recovers the outcome, and the
outcome-to-error-value map is injective. -/
theorem C4_error_taxonomy :
    (∀ body, get_pr_info (.response 404 body) = .error (errMessage .notFound)) ∧
    (∀ body, get_pr_info (.response 403 body) = .error (errMessage .rateLimited)) ∧
    (∀ body (code : ℕ), code ≠ 404 → code ≠ 403 → code ≠ 200 →
      get_pr_info (.response code body) = .error (errMessage (.unexpectedStatus code))) ∧
    get_pr_info .timedOut = .error (errMessage .timedOutErr) ∧
    get_pr_info .connectionError = .error (errMessage .networkErr) ∧
    (∀ k : FetchErrKind, classify_error (errMessage k) = k) ∧
    Function.Injective errMessage := by
  refine ⟨fun _ => rfl, fun _ => rfl, ?_, rfl, rfl, classify_errMessage, ?_⟩
  · intro body code h1 h2 h3
    show (if code = 404 then Except.error "PR不存在或仓库不可访问"
      else if code = 403 then Except.error "API速率限制已达上限，请稍后再试"
      else if code ≠ 200 then Except.error ("API请求失败: " ++ natToDecStr code)
      else Except.ok body) = Except.error (errMessage (.unexpectedStatus code))
    rw [if_neg h1, if_neg h2, if_pos h3]
    rfl
  · intro k₁ k₂ h
    have h₁ := classify_errMessage k₁
    rw [h, classify_errMessage k₂] at h₁
    exact h₁.symm

/-- Witness for C4: an unexpected HTTP 500 yields the parameterised
`UnexpectedStatus` error value. -/
theorem C4_error_taxonomy_witness :
    get_pr_info (.response 500 "b") = .error (errMessage (.unexpectedStatus 500)) :=
  C4_error_taxonomy.2.2.1 "b" 500 (by decide) (by decide) (by decide)

/-! ### Persistence — `main.py` `save_config` / `load_config`

`save_config` serialises the token (stripped), the `pr_list` (each entry as
a structured object with `url`/`owner`/`repo`/`pull_number` and, when a
status is present, a `cached_status` object of seven fields), the interval
in seconds, the owner history and the last refresh time.  `load_config`
tolerates legacy bare-URL-string entries and partial objects, and drops
everything else. -/

/-- The seven status fields `save_config` persists under `cached_status`. -/
structure CachedStatus where
  title         : String
  author        : String
  state         : String
  merged        : Bool
  ci_status     : String
  review_status : String
  updated_at    : String
deriving DecidableEq, Repr

/-- One entry of the persisted `pr_list`: a legacy bare URL string, a
structured object carrying all four keys (with optional cached status), a
partial object carrying only a `url` key, or anything unrecognized. -/
inductive ConfigEntry where
  | legacyUrl (url : String)
  | structured (url owner repo pull_number : String) (cached : Option CachedStatus)
  | urlOnly (url : String)
  | unrecognized
deriving DecidableEq, Repr

/-- The persisted configuration object. -/
structure Config where
  token             : String
  pr_list           : List ConfigEntry
  interval          : ℕ
  owner_list        : List String
  last_refresh_time : Option String
deriving DecidableEq, Repr

/-- The in-memory fields `load_config`/`save_config` read and write. -/
structure AppState where
  token_input       : String
  pr_list           : List PRInfo
  interval_text     : String
  owner_items       : List String
  last_refresh_time : Option String
deriving DecidableEq, Repr

/-- State right after `init_ui`, before `load_config` runs. -/
def initial_app_state : AppState :=
  { token_input := ""
    pr_list := []
    interval_text := "30秒"
    owner_items := ["vllm-project"]
    last_refresh_time := none }

/-- `self.interval_options`, in insertion order. -/
def interval_options : List (String × ℕ) :=
  [("10秒", 10), ("30秒", 30), ("1分钟", 60), ("3分钟", 180),
   ("5分钟", 300), ("30分钟", 1800), ("1小时", 3600)]

/-- `get_interval_seconds`: the seconds of the selected text, default 30. -/
def get_interval_seconds (t : String) : ℕ :=
  ((interval_options.find? (fun p => p.1 = t)).map Prod.snd).getD 30

/-- The loop in `load_config` mapping a persisted interval back to its
option text, default `30秒`. -/
def interval_text_of (n : ℕ) : String :=
  ((interval_options.find? (fun p => p.2 = n)).map Prod.fst).getD "30秒"

/-- Loading one persisted `pr_list` item: legacy strings and url-only
objects are parsed (dropped when the URL does not parse), structured
objects are taken as-is, restoring a cached status with `created_at`
cleared and `url` taken from the entry; anything else is dropped. -/
def loadEntry : ConfigEntry → Option PRInfo
  | .legacyUrl url =>
    (parse_pr_url url).map (fun t => ⟨t.1, t.2.1, t.2.2, url, none⟩)
  | .structured url owner repo number cached =>
    some ⟨owner, repo, number, url,
      cached.map (fun cs =>
        ⟨cs.title, cs.author, cs.state, cs.merged, cs.ci_status,
         cs.review_status, cs.updated_at, "", url⟩)⟩
  | .urlOnly url =>
    if url ≠ "" then (parse_pr_url url).map (fun t => ⟨t.1, t.2.1, t.2.2, url, none⟩)
    else none
  | .unrecognized => none

/-- `load_config` applied to a present config file. -/
def load_config (s0 : AppState) (c : Config) : AppState :=
  let s1 := if c.token ≠ "" then { s0 with token_input := c.token } else s0
  let s2 :=
    if c.owner_list ≠ [] then { s1 with owner_items := c.owner_list }
    else if s1.owner_items = [] then { s1 with owner_items := ["vllm-project"] }
    else s1
  let s3 := { s2 with pr_list := s2.pr_list ++ c.pr_list.filterMap loadEntry }
  let s4 := { s3 with interval_text := interval_text_of c.interval }
  { s4 with last_refresh_time := c.last_refresh_time }

/-- Serialising one `pr_list` entry. -/
def saveEntry (pr : PRInfo) : ConfigEntry :=
  .structured pr.url pr.owner pr.repo pr.pull_number
    (pr.status.map (fun st =>
      ⟨st.title, st.author, st.state, st.merged, st.ci_status,
       st.review_status, st.updated_at⟩))

/-- `save_config`. -/
def save_config (s : AppState) : Config :=
  { token := pyStrip s.token_input
    pr_list := s.pr_list.map saveEntry
    interval := get_interval_seconds s.interval_text
    owner_list := s.owner_items
    last_refresh_time := s.last_refresh_time }

theorem loadEntry_saveEntry {pr : PRInfo}
    (h : ∀ st, pr.status = some st → st.created_at = "" ∧ st.url = pr.url) :
    loadEntry (saveEntry pr) = some pr := by
  obtain ⟨ow, rp, num, url, st⟩ := pr
  rcases st with _ | st
  · rfl
  · obtain ⟨hc, hu⟩ := h st rfl
    obtain ⟨t, a, sstate, m, ci, rv, up, cr, u⟩ := st
    simp only at hc hu
    subst hc
    subst hu
    rfl

theorem filterMap_load_save (prs : List PRInfo) :
    (∀ pr ∈ prs, ∀ st, pr.status = some st → st.created_at = "" ∧ st.url = pr.url) →
    List.filterMap loadEntry (prs.map saveEntry) = prs := by
  induction prs with
  | nil => intro _; rfl
  | cons p t ih =>
    intro h
    rw [List.map_cons, List.filterMap_cons]
    simp only [loadEntry_saveEntry (h p (List.mem_cons_self p t))]
    rw [ih (fun q hq st hst => h q (List.mem_cons_of_mem _ hq) st hst)]

theorem interval_roundtrip :
    ∀ t ∈ interval_options.map Prod.fst, interval_text_of (get_interval_seconds t) = t := by
  intro t ht
  obtain ⟨p, hp, hfst⟩ := List.mem_map.mp ht
  subst hfst
  fin_cases hp <;> decide

theorem load_save_id (s : AppState)
    (htok : pyStrip s.token_input = s.token_input)
    (hint : s.interval_text ∈ interval_options.map Prod.fst)
    (hown : s.owner_items ≠ [])
    (hst : ∀ pr ∈ s.pr_list, ∀ st, pr.status = some st →
      st.created_at = "" ∧ st.url = pr.url) :
    load_config initial_app_state (save_config s) = s := by
  obtain ⟨tok, prs, itext, own, lrt⟩ := s
  simp only at htok hint hown hst
  have hpr := filterMap_load_save prs hst
  have hit := interval_roundtrip itext hint
  by_cases htok0 : tok = ""
  · subst htok0
    simp [load_config, save_config, initial_app_state, hown, hpr, hit,
      show pyStrip "" = "" from rfl]
  · simp [load_config, save_config, initial_app_state, hown, hpr, hit, htok, htok0]

theorem load_config_fields (c : Config) :
    (load_config initial_app_state c).token_input
        = (if c.token ≠ "" then c.token else "") ∧
    (load_config initial_app_state c).interval_text = interval_text_of c.interval ∧
    (load_config initial_app_state c).owner_items
        = (if c.owner_list ≠ [] then c.owner_list else ["vllm-project"]) ∧
    (load_config initial_app_state c).pr_list = c.pr_list.filterMap loadEntry ∧
    (load_config initial_app_state c).last_refresh_time = c.last_refresh_time := by
  by_cases h1 : c.token ≠ "" <;> by_cases h2 : c.owner_list ≠ [] <;>
    simp [load_config, initial_app_state, h1, h2]

theorem interval_text_of_mem (n : ℕ) :
    interval_text_of n ∈ interval_options.map Prod.fst := by
  rw [interval_text_of]
  rcases hf : interval_options.find? (fun p => p.2 = n) with _ | p
  · rw [hf]
    decide
  · rw [hf]
    have hmem := List.mem_of_find?_eq_some hf
    exact List.mem_map.mpr ⟨p, hmem, rfl⟩

theorem loadEntry_status_shape {e : ConfigEntry} {pr : PRInfo}
    (he : loadEntry e = some pr) :
    ∀ st, pr.status = some st → st.created_at = "" ∧ st.url = pr.url := by
  intro st hstat
  cases e with
  | legacyUrl url =>
    rw [loadEntry] at he
    obtain ⟨t, -, hpr⟩ := Option.map_eq_some'.mp he
    rw [← hpr] at hstat
    exact absurd hstat (by simp)
  | structured url owner repo number cached =>
    rw [loadEntry] at he
    cases Option.some.inj he
    rcases cached with _ | cs
    · exact absurd hstat (by simp)
    · simp only [Option.map_some] at hstat
      cases Option.some.inj hstat
      exact ⟨rfl, rfl⟩
  | urlOnly url =>
    rw [loadEntry] at he
    by_cases hu : url ≠ ""
    · rw [if_pos hu] at he
      obtain ⟨t, -, hpr⟩ := Option.map_eq_some'.mp he
      rw [← hpr] at hstat
      exact absurd hstat (by simp)
    · rw [if_neg hu] at he
      exact absurd he (by simp)
  | unrecognized => exact absurd he (by simp [loadEntry])

theorem head?_dropWhile_false {p : Char → Bool} :
    ∀ (l : List Char) (c : Char), (l.dropWhile p).head? = some c → p c = false := by
  intro l
  induction l with
  | nil => intro c hc; cases hc
  | cons a t ih =>
    intro c hc
    rw [List.dropWhile_cons] at hc
    by_cases hp : p a = true
    · rw [if_pos hp] at hc
      exact ih c hc
    · rw [if_neg hp] at hc
      cases Option.some.inj hc
      simpa using hp

theorem stripChars_eq_self {l : List Char}
    (hh : ∀ c, l.head? = some c → ¬ c.isWhitespace)
    (hl : ∀ c, l.getLast? = some c → ¬ c.isWhitespace) :
    stripChars l = l := by
  unfold stripChars rstripChars
  rw [dropWhile_eq_self_of_head hh,
    dropWhile_eq_self_of_head (fun c hc => by
      rw [List.head?_reverse] at hc
      simpa using hl c hc),
    List.reverse_reverse]

theorem head?_stripChars (l : List Char) :
    ∀ c, (stripChars l).head? = some c → ¬ c.isWhitespace := by
  intro c hc
  rw [stripChars] at hc
  rcases head?_rstripChars (l.dropWhile Char.isWhitespace) with h | h
  · rw [h] at hc
    cases hc
  · rw [h] at hc
    simp [head?_dropWhile_false _ c hc]

theorem getLast?_stripChars (l : List Char) :
    ∀ c, (stripChars l).getLast? = some c → ¬ c.isWhitespace := by
  intro c hc
  rw [stripChars, rstripChars, List.getLast?_reverse] at hc
  simp [head?_dropWhile_false _ c hc]

theorem stripChars_idem (l : List Char) : stripChars (stripChars l) = stripChars l :=
  stripChars_eq_self (head?_stripChars l) (getLast?_stripChars l)

theorem pyStrip_idem (s : String) : pyStrip (pyStrip s) = pyStrip s := by
  unfold pyStrip
  rw [show (⟨stripChars s.data⟩ : String).data = stripChars s.data from rfl, stripChars_idem]

/-- Converse of `load_save_id`: when the round trip reproduces the state,
the state is necessarily in persisted shape. -/
theorem shape_of_load_save_eq (s : AppState)
    (heq : load_config initial_app_state (save_config s) = s) :
    pyStrip s.token_input = s.token_input ∧
    s.interval_text ∈ interval_options.map Prod.fst ∧
    s.owner_items ≠ [] ∧
    (∀ pr ∈ s.pr_list, ∀ st, pr.status = some st →
      st.created_at = "" ∧ st.url = pr.url) := by
  obtain ⟨hf1, hf2, hf3, hf4, -⟩ := load_config_fields (save_config s)
  rw [heq] at hf1 hf2 hf3 hf4
  refine ⟨?_, ?_, ?_, ?_⟩
  · by_cases h : (save_config s).token ≠ ""
    · rw [if_pos h] at hf1
      exact hf1.symm
    · rw [if_neg h] at hf1
      rw [hf1]
      rfl
  · rw [hf2]
    exact interval_text_of_mem _
  · rw [hf3]
    by_cases h : (save_config s).owner_list ≠ []
    · rw [if_pos h]
      exact h
    · rw [if_neg h]
      simp
  · rw [hf4]
    intro pr hpr st hstat
    obtain ⟨e, -, he⟩ := List.mem_filterMap.mp hpr
    exact loadEntry_status_shape he st hstat

/-- `load ∘ save ∘ load = load` on configs whose stored token equals its
stripped form (the shape `save_config` itself always writes). -/
theorem load_save_load_id (c : Config) (hc : pyStrip c.token = c.token) :
    load_config initial_app_state (save_config (load_config initial_app_state c))
      = load_config initial_app_state c := by
  obtain ⟨hf1, hf2, hf3, hf4, -⟩ := load_config_fields c
  apply load_save_id
  · rw [hf1]
    by_cases h : c.token ≠ ""
    · rw [if_pos h]
      exact hc
    · rw [if_neg h]
      rfl
  · rw [hf2]
    exact interval_text_of_mem c.interval
  · rw [hf3]
    by_cases h : c.owner_list ≠ []
    · rw [if_pos h]
      exact h
    · rw [if_neg h]
      simp
  · rw [hf4]
    intro pr hpr st hstat
    obtain ⟨e, -, he⟩ := List.mem_filterMap.mp hpr
    exact loadEntry_status_shape he st hstat

/-- The first save normalises the token, so the round trip stabilises after
one save/load cycle on every config, with no hypothesis at all. -/
theorem load_save_stabilises (c : Config) :
    load_config initial_app_state
        (save_config (load_config initial_app_state
          (save_config (load_config initial_app_state c))))
      = load_config initial_app_state (save_config (load_config initial_app_state c)) := by
  apply load_save_load_id
  show pyStrip (pyStrip (load_config initial_app_state c).token_input)
    = pyStrip (load_config initial_app_state c).token_input
  exact pyStrip_idem _

/-- A concrete persisted config that mixes one legacy bare-URL entry and
one structured entry with a cached status. -/
def legacy_structured_config : Config :=
  { token := ""
    pr_list :=
      [.legacyUrl "https://github.com/a/b/pull/1",
       .structured "https://github.com/a/b/pull/2" "a" "b" "2"
        (some ⟨"T", "au", "open", false, "unknown", "unknown", "u"⟩)]
    interval := 30
    owner_list := ["vllm-project"]
    last_refresh_time := none }

/-- A concrete in-memory state holding one legacy-loaded entry (bare status)
and one entry whose status came from a real fetch (non-empty
`created_at`). -/
def fetched_app_state : AppState :=
  { token_input := ""
    pr_list :=
      [⟨"a", "b", "1", "https://github.com/a/b/pull/1", none⟩,
       ⟨"a", "b", "2", "https://github.com/a/b/pull/2",
        some ⟨"T", "au", "open", false, "success", "approved",
          "2024-01-02 00:00:00", "2024-01-01 00:00:00",
          "https://github.com/a/b/pull/2"⟩⟩]
    interval_text := "30秒"
    owner_items := ["vllm-project"]
    last_refresh_time := some "2024-01-02 00:00:00" }

/-- C3 counterexample: the persistence round trip is not the identity.  At
the persisted level, a config holding a legacy bare-URL entry next to a
structured entry is not reproduced (the legacy entry is re-serialised in
structured form); at the in-memory level, a state whose structured entry
carries a fetched status with a non-empty `created_at` is not reproduced
(`load_config` restores `created_at` as `''`; `save_config` never persists
it). -/
theorem C3_roundtrip_counterexample :
    (legacy_structured_config.pr_list.head?
        = some (.legacyUrl "https://github.com/a/b/pull/1")) ∧
    (∃ e ∈ legacy_structured_config.pr_list,
      ∃ u o r n cs, e = .structured u o r n cs) ∧
    save_config (load_config initial_app_state legacy_structured_config)
      ≠ legacy_structured_config ∧
    load_config initial_app_state (save_config fetched_app_state)
      ≠ fetched_app_state := by
  refine ⟨rfl, ⟨_, by decide, "https://github.com/a/b/pull/2", "a", "b", "2",
    some ⟨"T", "au", "open", false, "unknown", "unknown", "u"⟩, rfl⟩, ?_, ?_⟩ <;> decide

/-- C3 (amended): the persistence round trip `load(save(state)) = state`
holds precisely — if and only if — on states already in persisted shape:
statuses carry only the persisted fields (`created_at` empty and status
`url` equal to the entry url), the token equals its stripped form, the
interval text is one of the interval options, and the owner list is
non-empty.  `load ∘ save ∘ load = load` on every config whose stored token
equals its stripped form (the shape `save_config` itself always writes);
an unstripped token is normalised by the first save, so on every config
without exception the round trip stabilises after one save/load cycle.
Configs mixing legacy bare-URL entries and structured entries are covered;
the extra status fields of a freshly fetched state (and the legacy entry
shape itself) are not preserved. -/
theorem C3_roundtrip_amended (s : AppState) :
    (load_config initial_app_state (save_config s) = s ↔
      (pyStrip s.token_input = s.token_input ∧
       s.interval_text ∈ interval_options.map Prod.fst ∧
       s.owner_items ≠ [] ∧
       ∀ pr ∈ s.pr_list, ∀ st, pr.status = some st →
         st.created_at = "" ∧ st.url = pr.url)) ∧
    (∀ c : Config, pyStrip c.token = c.token →
      load_config initial_app_state (save_config (load_config initial_app_state c))
        = load_config initial_app_state c) ∧
    (∀ c : Config,
      load_config initial_app_state
          (save_config (load_config initial_app_state
            (save_config (load_config initial_app_state c))))
        = load_config initial_app_state (save_config (load_config initial_app_state c))) :=
  ⟨⟨shape_of_load_save_eq s,
    fun h => load_save_id s h.1 h.2.1 h.2.2.1 h.2.2.2⟩,
   load_save_load_id, load_save_stabilises⟩

/-- Witness for C3's amended claim: a state with a legacy-loaded entry and
a structured cached entry survives the round trip unchanged. -/
theorem C3_roundtrip_amended_witness :
    load_config initial_app_state
      (save_config
        ⟨"", [⟨"a", "b", "1", "https://github.com/a/b/pull/1/files", none⟩,
              ⟨"a", "b", "2", "https://github.com/a/b/pull/2",
               some ⟨"T", "au", "open", false, "success", "approved",
                "2024-01-02 00:00:00", "", "https://github.com/a/b/pull/2"⟩⟩],
         "30秒", ["vllm-project"], none⟩)
    = ⟨"", [⟨"a", "b", "1", "https://github.com/a/b/pull/1/files", none⟩,
            ⟨"a", "b", "2", "https://github.com/a/b/pull/2",
             some ⟨"T", "au", "open", false, "success", "approved",
              "2024-01-02 00:00:00", "", "https://github.com/a/b/pull/2"⟩⟩],
       "30秒", ["vllm-project"], none⟩ :=
  (C3_roundtrip_amended _).1.mpr
    ⟨by decide, by decide, by decide,
     by
      intro pr hpr st hstat
      fin_cases hpr
      · exact absurd hstat (by simp)
      · cases Option.some.inj hstat
        exact ⟨rfl, rfl⟩⟩

end PRNotif
